import Mathlib

/-!
Verification of the metadata pipeline of the Polarising-Microscopic-Image-Viewer
repository: the filename parser and table builder of
`scripts/make_metadata_from_filenames.py`, and the loading, filtering and
grouping logic of `scripts/streamlit_viewer.py`.

The Python sources are embedded shallowly: every function is translated into an
executable Lean definition over `List Char` / `String`, machine-level effects
(Streamlit widgets, pandas frames) are replaced by explicit data (filter
configurations as records, frames as `List Row`), and fallible code returns
`Except`.  String operations are modelled character-by-character so that every
definition evaluates inside the kernel.  Python's `str.lower`, `str.strip` and
the `re` module's `\s` class are modelled on their ASCII behaviour, which
coincides with Python on all ASCII data (all data exercised here).
-/

/-! ## Character utilities -/

/-- ASCII whitespace, the characters matched by Python's `\s` regex class and
stripped by `str.strip` (restricted to ASCII). -/
def isSpaceChar (c : Char) : Bool :=
  c = ' ' || c = '\t' || c = '\n' || c = '\x0d' || c = '\x0b' || c = '\x0c'

/-- Decimal digit test, the `[0-9]` class of the magnification regex. -/
def isDigitChar (c : Char) : Bool :=
  '0' ≤ c && c ≤ '9'

/-- Python `str.split(sep)` for a single-character separator: splitting an
empty string yields `[[]]` (Python: `"".split("_") == [""]`). -/
def splitSep (sep : Char) : List Char → List (List Char)
  | [] => [[]]
  | c :: cs =>
    let r := splitSep sep cs
    if c = sep then [] :: r
    else
      match r with
      | [] => [[c]]
      | t :: ts => (c :: t) :: ts

/-- Python `sep.join(parts)` for a single-character separator. -/
def joinSep (sep : Char) : List String → String
  | [] => ""
  | [s] => s
  | s :: rest => String.mk (s.data ++ sep :: (joinSep sep rest).data)

/-- Python `str.lower` (ASCII). -/
def pyLower (s : String) : String :=
  String.mk (s.data.map Char.toLower)

/-- Python `str.strip()` (ASCII whitespace). -/
def pyStrip (s : String) : String :=
  String.mk (((s.data.dropWhile isSpaceChar).reverse.dropWhile isSpaceChar).reverse)

/-- Index of the last `'.'` in a character list, if any. -/
def rfindDot : List Char → Option Nat
  | [] => none
  | c :: cs =>
    match rfindDot cs with
    | some i => some (i + 1)
    | none => if c = '.' then some 0 else none

/-- `pathlib.PurePath.stem` for a plain (separator-free) filename: the name
without its last suffix.  CPython: `i = name.rfind('.')`; the suffix is split
off only when `0 < i < len(name) - 1`. -/
def stemOf (name : String) : String :=
  match rfindDot name.data with
  | some i =>
      if 0 < i ∧ i < name.data.length - 1 then String.mk (name.data.take i) else name
  | none => name

/-- `pathlib.PurePath.suffix` for a plain filename (see `stemOf`). -/
def suffixOf (name : String) : String :=
  match rfindDot name.data with
  | some i =>
      if 0 < i ∧ i < name.data.length - 1 then String.mk (name.data.drop i) else ""
  | none => ""

/-- Decidable equality of `Except` results, so that parser outcomes can be
checked by evaluation. -/
instance {ε α : Type} [DecidableEq ε] [DecidableEq α] : DecidableEq (Except ε α) := fun x y =>
  match x, y with
  | .ok a, .ok b =>
    match decEq a b with
    | .isTrue h => .isTrue (h ▸ rfl)
    | .isFalse h => .isFalse (fun hh => h (Except.ok.inj hh))
  | .error e, .error f =>
    match decEq e f with
    | .isTrue h => .isTrue (h ▸ rfl)
    | .isFalse h => .isFalse (fun hh => h (Except.error.inj hh))
  | .ok _, .error _ => .isFalse (fun hh => Except.noConfusion hh)
  | .error _, .ok _ => .isFalse (fun hh => Except.noConfusion hh)

/-! ## The magnification grammar (`parse_filename`, lines 53–61) -/

/-- Value of a decimal digit string, most significant digit first. -/
def digitsToNat (ds : List Char) : Nat :=
  ds.foldl (fun n c => 10 * n + (c.toNat - '0'.toNat)) 0

/-- An exactly-represented decimal literal `num / 10 ^ scale`.  This models the
result of Python's `float(...)` on the matched numeric literal; every
magnification literal in the dataset (`10`, `10.5`, `20`, …) is exactly
representable, so the decimal value is the faithful reading. -/
structure DecimalLit where
  num : Nat
  scale : Nat
deriving DecidableEq, Repr

/-- The rational value denoted by a decimal literal. -/
def DecimalLit.toRat (d : DecimalLit) : ℚ :=
  (d.num : ℚ) / 10 ^ d.scale

/-- The optional fractional part `(\.[0-9]+)?` of the magnification regex:
consumes `'.'` followed by at least one digit, otherwise consumes nothing
(regex backtracking: a `'.'` not followed by a digit is left in place). -/
def fracSplit (rest : List Char) : List Char × List Char :=
  match rest with
  | c :: r =>
      if c = '.' ∧ r.takeWhile isDigitChar ≠ [] then
        (r.takeWhile isDigitChar, r.dropWhile isDigitChar)
      else ([], c :: r)
  | [] => ([], [])

/-- The optional `[xX]?` atom: consumes one leading `x` or `X` if present. -/
def stripX (l : List Char) : List Char :=
  match l with
  | c :: r => if c = 'x' ∨ c = 'X' then r else l
  | [] => []

/-- Matcher for `re.match(r"^\s*([0-9]+(\.[0-9]+)?)\s*[xX]?\s*$", tmp)`
(`parse_filename`, line 55), returning the value of group 1 as an exact
decimal on success.  The regex is deterministic on this alphabet (after the
digits only whitespace, one optional `x`/`X`, and the end may follow), so a
single maximal-munch pass is equivalent to the backtracking search. -/
def magMatch (cs : List Char) : Option DecimalLit :=
  let rest0 := cs.dropWhile isSpaceChar
  let ds := rest0.takeWhile isDigitChar
  let rest1 := rest0.dropWhile isDigitChar
  if ds = [] then none
  else
    let p := fracSplit rest1
    let rest3 := p.2.dropWhile isSpaceChar
    let rest4 := stripX rest3
    if rest4.dropWhile isSpaceChar = [] then
      some ⟨digitsToNat (ds ++ p.1), p.1.length⟩
    else none

/-- `tmp = mag_text.replace("_", ".")` (`parse_filename`, line 54). -/
def dotNormalize (s : String) : List Char :=
  s.data.map (fun c => if c = '_' then '.' else c)

/-- Lines 53–61 of `parse_filename`: normalise the separator to a decimal
point and run the magnification regex; `""` (absent) on no match is modelled
as `none`. -/
def parse_mag_value (mag : String) : Option DecimalLit :=
  magMatch (dotNormalize mag)

/-! ## `parse_filename` (`make_metadata_from_filenames.py`, lines 28–71) -/

/-- The `ValueError` raised by `parse_filename` (lines 34–40): fewer than 5
`'_'`-separated tokens; the message carries the observed token count and the
stem. -/
inductive ParseError where
  | invalidFilenameFormat (tokenCount : Nat) (stem : String)
deriving DecidableEq, Repr

/-- The dictionary returned by `parse_filename` (lines 63–71). -/
structure ParsedMeta where
  method : String
  location : String
  sample : String
  mode : String
  magnification : String
  magnification_value : Option DecimalLit
  ext : String
deriving DecidableEq, Repr

/-- The `'_'`-separated tokens of the stem of a filename
(`parts = stem.split("_")`, line 33). -/
def stemTokens (name : String) : List String :=
  (splitSep '_' (stemOf name).data).map String.mk

/-- `parse_filename` (lines 28–71): split the stem on `'_'`; fail below 5
tokens; anchor `method`/`location` at the front and `mode`/`magnification` at
the back; take `sample` verbatim at 5 tokens and rejoin `parts[2:-2]` with
`'_'` otherwise; attach the parsed magnification value and the lowercased
suffix. -/
def parse_filename (name : String) : Except ParseError ParsedMeta :=
  let ext := suffixOf name
  let stem := stemOf name
  let parts := stemTokens name
  if parts.length < 5 then
    .error (.invalidFilenameFormat parts.length stem)
  else
    let sample :=
      if parts.length = 5 then parts.getD 2 ""
      else joinSep '_' ((parts.take (parts.length - 2)).drop 2)
    let magnification := parts.getD (parts.length - 1) ""
    .ok
      { method := parts.getD 0 ""
        location := parts.getD 1 ""
        sample := sample
        mode := parts.getD (parts.length - 2) ""
        magnification := magnification
        magnification_value := parse_mag_value magnification
        ext := pyLower ext }

/-! ## The table builder (`main`, lines 87–111) -/

/-- `DEFAULT_EXTS` (lines 15–25). -/
def default_exts : List String :=
  [".png", ".jpg", ".jpeg", ".tif", ".tiff", ".bmp", ".gif", ".webp", ".dcm"]

/-- One row of `metadata.csv` (`rec_out`, lines 98–108), which is also the row
type of the viewer's frame after `load_metadata` stringifies the key columns.
`magnification_value` stays numeric (`pd.to_numeric`). -/
structure Row where
  filename : String
  method : String
  location : String
  sample : String
  mode : String
  magnification : String
  magnification_value : Option DecimalLit
  ext : String
  rel_path : String
deriving DecidableEq, Repr

/-- `rec_out` (lines 98–108) for a file scanned directly in the dataset root:
`p.relative_to(root)` of a direct child of `root` is its own name (the scan,
`root.iterdir()`, is not recursive). -/
def mkRow (name : String) (m : ParsedMeta) : Row :=
  { filename := name
    method := m.method
    location := m.location
    sample := m.sample
    mode := m.mode
    magnification := m.magnification
    magnification_value := m.magnification_value
    ext := m.ext
    rel_path := name }

/-- The loop body accumulator of `main` (lines 91–111): rows and errors are
appended in scan order. -/
def buildStep (exts : List String) (acc : List Row × List (String × ParseError))
    (name : String) : List Row × List (String × ParseError) :=
  if pyLower (suffixOf name) ∈ exts then
    match parse_filename name with
    | .ok m => (acc.1 ++ [mkRow name m], acc.2)
    | .error e => (acc.1, acc.2 ++ [(name, e)])
  else acc

/-- `main`'s scan loop (lines 88–111) over an already-enumerated, ordered
listing of plain filenames: extension-filtered parse of every entry,
aggregating successes as rows and failures as `(filename, error)` pairs. -/
def build_table (exts : List String) (names : List String) :
    List Row × List (String × ParseError) :=
  names.foldl (buildStep exts) ([], [])

/-! ## `load_metadata` (`streamlit_viewer.py`, lines 31–88) -/

/-- The ways `load_metadata` aborts: a pandas `KeyError` from a column lookup
(`df["rel_path"]`, line 50, runs before header normalisation), or the
`st.error`/`st.stop` pair for missing required columns (lines 64–67). -/
inductive LoadError where
  | keyError (col : String)
  | missingRequiredColumn (cols : List String)
deriving DecidableEq, Repr

/-- The `required` set of `load_metadata` (lines 54–63), listed in the sorted
order in which `st.error` reports missing entries (`sorted(missing)`).
`magnification_value` is not in this set: lines 69–70 default it instead. -/
def required_columns : List String :=
  ["ext", "filename", "location", "magnification", "method", "mode", "rel_path", "sample"]

/-- Header normalisation `c.strip().lower()` (line 52). -/
def norm_header (s : String) : String :=
  pyLower (pyStrip s)

/-- `load_metadata` (lines 31–88), as a function of the persisted file's
header row.  Line 50 accesses `df["rel_path"]` verbatim (pandas `KeyError`
when absent) and adds a `full_path` column; line 52 strips and lowercases all
headers; lines 64–67 stop with the sorted list of missing required columns;
lines 69–70 default a missing `magnification_value`; the remaining coercion
and stringification steps (lines 72–87) touch only columns just validated and
always succeed.  The result is the final column list. -/
def load_metadata (cols : List String) : Except LoadError (List String) :=
  if "rel_path" ∈ cols then
    let cols2 := (cols ++ ["full_path"]).map norm_header
    let missing := required_columns.filter (fun c => decide (c ∉ cols2))
    if missing = [] then
      .ok (if "magnification_value" ∈ cols2 then cols2 else cols2 ++ ["magnification_value"])
    else .error (.missingRequiredColumn missing)
  else .error (.keyError "rel_path")

/-! ## `filtered_df` (`streamlit_viewer.py`, lines 98–135) -/

/-- One **match attempt** of a pattern against the start of a text, for
patterns made of literal characters and the `'.'` wildcard — the fragment of
Python `re` exercised by this development (`Series.str.contains` compiles its
argument as a regular expression by default). -/
def reMatchHere : List Char → List Char → Bool
  | [], _ => true
  | _ :: _, [] => false
  | c :: ps, d :: ts => (c = '.' || c = d) && reMatchHere ps ts

/-- `re.search` semantics for the same pattern fragment: the pattern may match
at any position of the text.  This models pandas
`Series.str.contains(key)` (lines 108–109), whose default is `regex=True`. -/
def reSearch (p : List Char) : List Char → Bool
  | [] => reMatchHere p []
  | d :: ts => reMatchHere p (d :: ts) || reSearch p ts

/-- The sidebar state consumed by `filtered_df`: the free-text query and the
four multiselect selections. -/
structure FilterConfig where
  q : String
  sel_methods : List String
  sel_locations : List String
  sel_modes : List String
  sel_mags : List String
deriving Repr

/-- The text facet of `filtered_df` (lines 102–110): skipped when the stripped
query is empty, otherwise a case-insensitive regex search of the stripped
query in `sample` or `filename`. -/
def textTest (q : String) (r : Row) : Bool :=
  if pyStrip q = "" then true
  else
    let key := (pyLower (pyStrip q)).data
    reSearch key (pyLower r.sample).data || reSearch key (pyLower r.filename).data

/-- `sorted(series.dropna().unique().tolist())` (lines 113–115 and 128): the
distinct values in ascending order.  (All columns are stringified at load, so
`dropna` is the identity.) -/
def sorted_unique (l : List String) : List String :=
  (l.mergeSort (fun a b => decide (a ≤ b))).dedup

/-- `filtered_df` (lines 98–135): the text facet, then the joint
method/location/mode membership mask, then the magnification membership mask,
applied in sequence to the frame. -/
def filtered_df (cfg : FilterConfig) (df : List Row) : List Row :=
  let df1 :=
    if pyStrip cfg.q = "" then df
    else
      let key := (pyLower (pyStrip cfg.q)).data
      df.filter (fun r => reSearch key (pyLower r.sample).data || reSearch key (pyLower r.filename).data)
  let df2 := df1.filter (fun r =>
    decide (r.method ∈ cfg.sel_methods) && decide (r.location ∈ cfg.sel_locations)
      && decide (r.mode ∈ cfg.sel_modes))
  df2.filter (fun r => decide (r.magnification ∈ cfg.sel_mags))

/-- Modelled from the spec: the text facet "matching case-insensitively as a
substring of `sample` OR `filename`" — a plain (literal) substring test, for
comparison with the implementation's regex search. -/
def litHere : List Char → List Char → Bool
  | [], _ => true
  | _ :: _, [] => false
  | c :: ps, d :: ts => (c = d) && litHere ps ts

/-- Modelled from the spec: literal substring containment (see `litHere`). -/
def litSubstr (p : List Char) : List Char → Bool
  | [] => litHere p []
  | d :: ts => litHere p (d :: ts) || litSubstr p ts

/-- Modelled from the spec: case-insensitive substring matching of the query
in a field, the spec's reading of the text facet. -/
def spec_substring_ci (pat s : String) : Bool :=
  litSubstr (pyLower pat).data (pyLower s).data

/-! ## Grouping (`main`, `streamlit_viewer.py`, lines 281–304) -/

/-- The closed set of grouping axes offered by the `group_axis` selectbox
(line 271); the pinned axis (`view_mode`) is `sample` or `method`. -/
inductive Axis where
  | method
  | location
  | sample
  | mode
  | magnification
deriving DecidableEq, Repr

/-- Column access `row[field]` for the five comparison fields. -/
def fieldGet : Axis → Row → String
  | .method, r => r.method
  | .location, r => r.location
  | .sample, r => r.sample
  | .mode, r => r.mode
  | .magnification, r => r.magnification

/-- The ordering used by `subset.sort_values([group_axis, "filename"])`
(lines 287 and 299): lexicographic on the secondary attribute, then the
filename, with pandas' ascending string order (Python `<` on `str`). -/
def rowLe (ax : Axis) (x y : Row) : Prop :=
  fieldGet ax x < fieldGet ax y ∨ (fieldGet ax x = fieldGet ax y ∧ x.filename ≤ y.filename)

instance (ax : Axis) (x y : Row) : Decidable (rowLe ax x y) := by
  unfold rowLe; infer_instance

/-- `sort_values([group_axis, "filename"])`: any sort achieving the row order
of `rowLe`; pandas' default quicksort fixes no order on ties, and no proved
property depends on the tie order. -/
def sortRows (ax : Axis) (l : List Row) : List Row :=
  l.mergeSort (fun x y => decide (rowLe ax x y))

/-- Helper of `groupConsec`: prepend a row to the leading group when its key
matches, otherwise open a new leading group. -/
def insertGroup (key : Row → String) (r : Row) :
    List (String × List Row) → List (String × List Row)
  | [] => [(key r, [r])]
  | (k, g) :: gs => if key r = k then (k, r :: g) :: gs else (key r, [r]) :: (k, g) :: gs

/-- `subset.groupby(group_axis)` on an already key-sorted frame: split into
runs of equal keys, preserving row order (pandas `groupby` preserves
within-group order and sorts group keys; on a key-sorted frame that is exactly
run-splitting). -/
def groupConsec (key : Row → String) : List Row → List (String × List Row)
  | [] => []
  | r :: rs => insertGroup key r (groupConsec key rs)

/-- Lines 287–291 / 299–303: restrict the frame to the pinned value, sort by
(secondary attribute, filename), and group by the secondary attribute. -/
def grouped_view (df : List Row) (pin : Axis) (v : String) (ax : Axis) :
    List (String × List Row) :=
  groupConsec (fieldGet ax) (sortRows ax (df.filter (fun r => decide (fieldGet pin r = v))))

/-! ## The magnification grammar, as the spec words it -/

/-- A (possibly empty) run of whitespace, `\s*`. -/
def IsWsStr (w : List Char) : Prop := ∀ c ∈ w, isSpaceChar c = true

/-- A nonempty run of decimal digits, `[0-9]+`. -/
def DigitStr (d : List Char) : Prop := d ≠ [] ∧ ∀ c ∈ d, isDigitChar c = true

/-- An integer-or-decimal numeric literal together with the decimal value it
denotes: `[0-9]+(\.[0-9]+)?`. -/
def NumLitVal (n : List Char) (v : ℚ) : Prop :=
  (DigitStr n ∧ v = (digitsToNat n : ℚ)) ∨
  (∃ ds fs, DigitStr ds ∧ DigitStr fs ∧ n = ds ++ '.' :: fs ∧
    v = (digitsToNat (ds ++ fs) : ℚ) / 10 ^ fs.length)

/-- The spec's magnification grammar: optional surrounding whitespace, an
integer-or-decimal numeric literal, an optional trailing case-insensitive
`x`, nothing else — together with the decimal value of the literal. -/
def MagGrammar (s : List Char) (v : ℚ) : Prop :=
  ∃ w1 n w2 x w3, IsWsStr w1 ∧ NumLitVal n v ∧ IsWsStr w2 ∧
    (x = [] ∨ x = ['x'] ∨ x = ['X']) ∧ IsWsStr w3 ∧ s = w1 ++ n ++ w2 ++ x ++ w3

/-! ## Concrete instances used in witnesses and counterexamples -/

/-- The spec's 7-token sample-reconstruction example. -/
def exampleName7 : String := "PCM_BIU_glass_lube_extra_NA_10x.jpg"

/-- The record `parse_filename` produces for `exampleName7`. -/
def exampleMeta7 : ParsedMeta :=
  ⟨"PCM", "BIU", "glass_lube_extra", "NA", "10x", some ⟨10, 0⟩, ".jpg"⟩

/-- The repository's canonical 5-token example filename. -/
def exampleName5 : String := "PCM_BIU_glassLube_NA_10x.jpg"

/-- The record `parse_filename` produces for `exampleName5`. -/
def exampleMeta5 : ParsedMeta :=
  ⟨"PCM", "BIU", "glassLube", "NA", "10x", some ⟨10, 0⟩, ".jpg"⟩

/-- A row whose `sample` field `"axc"` matches the regex pattern `"a.c"` but
does not contain it as a substring. -/
def row_axc : Row :=
  ⟨"f.jpg", "M", "L", "axc", "NA", "10x", some ⟨10, 0⟩, ".jpg", "f.jpg"⟩

/-- A filter configuration whose free-text query `"a.c"` contains the regex
wildcard `'.'`, with every membership facet covering `row_axc`. -/
def cfg_regex : FilterConfig :=
  ⟨"a.c", ["M"], ["L"], ["NA"], ["10x"]⟩

/-- The identity configuration for the one-row table `[row_axc]`: empty
query, every facet at its full default. -/
def cfg_ident : FilterConfig :=
  ⟨"", ["M"], ["L"], ["NA"], ["10x"]⟩

/-- A header row with every canonical column except `magnification_value`. -/
def cols_without_magvalue : List String :=
  ["filename", "method", "location", "sample", "mode", "magnification", "ext", "rel_path"]

/-- A header row with every canonical column except `rel_path`. -/
def cols_without_relpath : List String :=
  ["filename", "method", "location", "sample", "mode", "magnification",
   "magnification_value", "ext"]

/-- A header row with every canonical column except `method`. -/
def cols_without_method : List String :=
  ["filename", "location", "sample", "mode", "magnification",
   "magnification_value", "ext", "rel_path"]

/-- The canonical header row in upper case: it differs from the canonical
column names only in letter case. -/
def cols_upper : List String :=
  ["FILENAME", "METHOD", "LOCATION", "SAMPLE", "MODE", "MAGNIFICATION",
   "MAGNIFICATION_VALUE", "EXT", "REL_PATH"]

/-- A header row differing from the canonical names only in case and
surrounding whitespace, with `rel_path` itself spelled canonically. -/
def cols_mixedcase : List String :=
  ["Filename ", " METHOD", "Location", "Sample", "Mode", "Magnification",
   "Magnification_Value", "EXT", "rel_path"]

/-! ## List and character lemmas -/

theorem dropWhile_append_all {α : Type} (p : α → Bool) {w r : List α}
    (hw : ∀ a ∈ w, p a = true) : (w ++ r).dropWhile p = r.dropWhile p := by
  induction w with
  | nil => rfl
  | cons a w ih =>
      have ha := hw a (by simp)
      simpa [List.dropWhile_cons, ha] using ih (fun b hb => hw b (by simp [hb]))

theorem dropWhile_eq_nil_of_all {α : Type} (p : α → Bool) {l : List α}
    (hl : ∀ a ∈ l, p a = true) : l.dropWhile p = [] := by
  induction l with
  | nil => rfl
  | cons a l ih =>
      have ha := hl a (by simp)
      simpa [List.dropWhile_cons, ha] using ih (fun b hb => hl b (by simp [hb]))

theorem all_of_dropWhile_eq_nil {α : Type} {p : α → Bool} {l : List α}
    (h : l.dropWhile p = []) : ∀ a ∈ l, p a = true := by
  induction l with
  | nil => simp
  | cons a l ih =>
      by_cases ha : p a = true
      · rw [List.dropWhile_cons, if_pos ha] at h
        intro b hb
        rcases List.mem_cons.mp hb with rfl | hb
        · exact ha
        · exact ih h b hb
      · rw [List.dropWhile_cons, if_neg ha] at h
        cases h

theorem head_dropWhile_not {α : Type} (p : α → Bool) (l : List α) :
    ∀ a, (l.dropWhile p).head? = some a → p a = false := by
  induction l with
  | nil => intro a h; cases h
  | cons b l ih =>
      intro a h
      by_cases hb : p b = true
      · rw [List.dropWhile_cons, if_pos hb] at h
        exact ih a h
      · rw [List.dropWhile_cons, if_neg hb] at h
        cases h
        simpa using hb

theorem takeWhile_munch {α : Type} (p : α → Bool) {d r : List α}
    (hd : ∀ a ∈ d, p a = true) (hr : ∀ a, r.head? = some a → p a = false) :
    (d ++ r).takeWhile p = d ∧ (d ++ r).dropWhile p = r := by
  induction d with
  | nil =>
      cases r with
      | nil => exact ⟨rfl, rfl⟩
      | cons a t =>
          have := hr a rfl
          constructor
          · simp [List.takeWhile_cons, this]
          · simp [List.dropWhile_cons, this]
  | cons a d ih =>
      have ha := hd a (by simp)
      obtain ⟨iht, ihd⟩ := ih (fun b hb => hd b (by simp [hb]))
      constructor
      · simp [List.takeWhile_cons, ha, iht]
      · simp [List.dropWhile_cons, ha, ihd]

theorem all_takeWhile {α : Type} (p : α → Bool) (l : List α) :
    ∀ a ∈ l.takeWhile p, p a = true := by
  induction l with
  | nil => simp
  | cons b l ih =>
      by_cases hb : p b = true
      · rw [List.takeWhile_cons, if_pos hb]
        intro a ha
        rcases List.mem_cons.mp ha with rfl | ha
        · exact hb
        · exact ih a ha
      · rw [List.takeWhile_cons, if_neg hb]
        simp

theorem space_char_cases {c : Char} (h : isSpaceChar c = true) :
    c = ' ' ∨ c = '\t' ∨ c = '\n' ∨ c = '\x0d' ∨ c = '\x0b' ∨ c = '\x0c' := by
  have h' := h
  simp only [isSpaceChar, Bool.or_eq_true, decide_eq_true_eq] at h'
  tauto

theorem space_not_digit {c : Char} (h : isSpaceChar c = true) : isDigitChar c = false := by
  rcases space_char_cases h with rfl | rfl | rfl | rfl | rfl | rfl <;> decide

theorem space_ne_dot {c : Char} (h : isSpaceChar c = true) : c ≠ '.' := by
  rcases space_char_cases h with rfl | rfl | rfl | rfl | rfl | rfl <;> decide

theorem digit_not_space {c : Char} (h : isDigitChar c = true) : isSpaceChar c = false := by
  by_cases hs : isSpaceChar c = true
  · rw [space_not_digit hs] at h; cases h
  · simpa using hs

/-! ## Unfolding lemmas for `parse_filename` -/

theorem parse_filename_err (name : String) (h : (stemTokens name).length < 5) :
    parse_filename name =
      .error (.invalidFilenameFormat (stemTokens name).length (stemOf name)) := by
  simp [parse_filename, h]

theorem parse_filename_ok (name : String) (h : ¬ (stemTokens name).length < 5) :
    parse_filename name = .ok
      { method := (stemTokens name).getD 0 ""
        location := (stemTokens name).getD 1 ""
        sample :=
          if (stemTokens name).length = 5 then (stemTokens name).getD 2 ""
          else joinSep '_' (((stemTokens name).take ((stemTokens name).length - 2)).drop 2)
        mode := (stemTokens name).getD ((stemTokens name).length - 2) ""
        magnification := (stemTokens name).getD ((stemTokens name).length - 1) ""
        magnification_value :=
          parse_mag_value ((stemTokens name).getD ((stemTokens name).length - 1) "")
        ext := pyLower (suffixOf name) } := by
  simp [parse_filename, h]

/-! ## C1, C2, C4 -/

/-- C4: parsing fails exactly when the stem splits into fewer than 5
`'_'`-separated tokens, and the failure is the `InvalidFilenameFormat` error
carrying the observed token count (and the stem, as in the `ValueError`
message); with 5 or more tokens parsing succeeds. -/
theorem c4_failure_iff_short (name : String) :
    if (stemTokens name).length < 5 then
      parse_filename name =
        .error (.invalidFilenameFormat (stemTokens name).length (stemOf name))
    else ∃ r, parse_filename name = .ok r := by
  split
  · exact parse_filename_err name (by assumption)
  · exact ⟨_, parse_filename_ok name (by assumption)⟩

/-- C1: for every filename whose stem splits into at least 5 tokens, parsing
succeeds, `method` and `location` are tokens 0 and 1, `mode` is the
second-to-last token, and the raw `magnification` is the last token. -/
theorem c1_position_anchored (name : String) (h : 5 ≤ (stemTokens name).length) :
    ∃ r, parse_filename name = .ok r ∧
      r.method = (stemTokens name).getD 0 "" ∧
      r.location = (stemTokens name).getD 1 "" ∧
      r.mode = (stemTokens name).getD ((stemTokens name).length - 2) "" ∧
      r.magnification = (stemTokens name).getD ((stemTokens name).length - 1) "" :=
  ⟨_, parse_filename_ok name (by omega), rfl, rfl, rfl, rfl⟩

/-- Witness for C1 at the repository's example filename. -/
theorem c1_witness :
    5 ≤ (stemTokens exampleName5).length ∧
    ∃ r, parse_filename exampleName5 = .ok r ∧
      r.method = (stemTokens exampleName5).getD 0 "" ∧
      r.location = (stemTokens exampleName5).getD 1 "" ∧
      r.mode = (stemTokens exampleName5).getD ((stemTokens exampleName5).length - 2) "" ∧
      r.magnification =
        (stemTokens exampleName5).getD ((stemTokens exampleName5).length - 1) "" :=
  ⟨by decide, c1_position_anchored exampleName5 (by decide)⟩

/-- C2: in every successfully parsed filename, a 5-token stem takes `sample`
verbatim from token 2, and a longer stem rejoins the tokens strictly between
position 1 and the last two with the original `'_'` separator. -/
theorem c2_sample_reconstruction (name : String) (r : ParsedMeta)
    (h : parse_filename name = .ok r) :
    ((stemTokens name).length = 5 → r.sample = (stemTokens name).getD 2 "") ∧
    (5 < (stemTokens name).length →
      r.sample =
        joinSep '_' (((stemTokens name).take ((stemTokens name).length - 2)).drop 2)) := by
  have hlen : ¬ (stemTokens name).length < 5 := by
    intro hlt
    rw [parse_filename_err name hlt] at h
    cases h
  rw [parse_filename_ok name hlen] at h
  obtain rfl := Except.ok.inj h
  constructor
  · intro h5
    simp [h5]
  · intro h5
    have h5' : ¬ (stemTokens name).length = 5 := by omega
    simp [h5']

/-- Witness for C2 at the spec's 7-token example: the reconstructed sample is
`glass_lube_extra`. -/
theorem c2_witness :
    parse_filename exampleName7 = .ok exampleMeta7 ∧
    exampleMeta7.sample = "glass_lube_extra" := by
  have h : parse_filename exampleName7 = .ok exampleMeta7 := by decide
  have h2 := (c2_sample_reconstruction exampleName7 exampleMeta7 h).2 (by decide)
  exact ⟨h, h2.trans (by decide)⟩

/-! ## The magnification matcher meets the grammar -/

theorem fracSplit_cons (c : Char) (r : List Char) :
    fracSplit (c :: r) =
      if c = '.' ∧ r.takeWhile isDigitChar ≠ [] then
        (r.takeWhile isDigitChar, r.dropWhile isDigitChar)
      else ([], c :: r) := rfl

theorem fracSplit_cases (rest1 : List Char) :
    fracSplit rest1 = ([], rest1) ∨
    (∃ r, rest1 = '.' :: r ∧ r.takeWhile isDigitChar ≠ [] ∧
      fracSplit rest1 = (r.takeWhile isDigitChar, r.dropWhile isDigitChar)) := by
  cases rest1 with
  | nil => left; rfl
  | cons c r =>
      by_cases hc : c = '.' ∧ r.takeWhile isDigitChar ≠ []
      · right
        exact ⟨r, by rw [hc.1], hc.2, by rw [fracSplit_cons, if_pos hc]⟩
      · left
        rw [fracSplit_cons, if_neg hc]

theorem fracSplit_of_head_not_dot {l : List Char}
    (h : ∀ c, l.head? = some c → c ≠ '.') : fracSplit l = ([], l) := by
  cases l with
  | nil => rfl
  | cons c r =>
      have hc : c ≠ '.' := h c rfl
      rw [fracSplit_cons, if_neg (by simp [hc])]

theorem tail_head_not {w2 x w3 : List Char} (hw2 : IsWsStr w2)
    (hx : x = [] ∨ x = ['x'] ∨ x = ['X']) (hw3 : IsWsStr w3) :
    ∀ c, (w2 ++ x ++ w3).head? = some c → isDigitChar c = false ∧ c ≠ '.' := by
  intro c hc
  cases w2 with
  | cons a t =>
      have ha : a = c := by simpa using hc
      have hs := hw2 a (by simp)
      rw [← ha]
      exact ⟨space_not_digit hs, space_ne_dot hs⟩
  | nil =>
      rcases hx with rfl | rfl | rfl
      · cases w3 with
        | nil => cases hc
        | cons a t =>
            have ha : a = c := by simpa using hc
            have hs := hw3 a (by simp)
            rw [← ha]
            exact ⟨space_not_digit hs, space_ne_dot hs⟩
      · have ha : 'x' = c := by simpa using hc
        rw [← ha]
        exact ⟨by decide, by decide⟩
      · have ha : 'X' = c := by simpa using hc
        rw [← ha]
        exact ⟨by decide, by decide⟩

theorem magTail_empty {w2 x w3 : List Char} (hw2 : IsWsStr w2)
    (hx : x = [] ∨ x = ['x'] ∨ x = ['X']) (hw3 : IsWsStr w3) :
    (stripX ((w2 ++ x ++ w3).dropWhile isSpaceChar)).dropWhile isSpaceChar = [] := by
  rw [List.append_assoc, dropWhile_append_all isSpaceChar hw2]
  rcases hx with rfl | rfl | rfl
  · rw [List.nil_append, dropWhile_eq_nil_of_all isSpaceChar hw3]
    rfl
  · have h1 : (['x'] ++ w3).dropWhile isSpaceChar = 'x' :: w3 := by
      have hxs : isSpaceChar 'x' = false := by decide
      simp [List.dropWhile_cons, hxs]
    rw [h1]
    have hstrip : stripX ('x' :: w3) = w3 := by simp [stripX]
    rw [hstrip, dropWhile_eq_nil_of_all isSpaceChar hw3]
  · have h1 : (['X'] ++ w3).dropWhile isSpaceChar = 'X' :: w3 := by
      have hxs : isSpaceChar 'X' = false := by decide
      simp [List.dropWhile_cons, hxs]
    rw [h1]
    have hstrip : stripX ('X' :: w3) = w3 := by simp [stripX]
    rw [hstrip, dropWhile_eq_nil_of_all isSpaceChar hw3]

theorem magTail_sound {rest2 : List Char}
    (h1 : (stripX (rest2.dropWhile isSpaceChar)).dropWhile isSpaceChar = []) :
    ∃ w2 x w3, IsWsStr w2 ∧ (x = [] ∨ x = ['x'] ∨ x = ['X']) ∧ IsWsStr w3 ∧
      rest2 = w2 ++ x ++ w3 := by
  have hsplit : rest2 = rest2.takeWhile isSpaceChar ++ rest2.dropWhile isSpaceChar :=
    (List.takeWhile_append_dropWhile _ _).symm
  have hw2 : IsWsStr (rest2.takeWhile isSpaceChar) := all_takeWhile _ _
  cases hc : rest2.dropWhile isSpaceChar with
  | nil =>
      refine ⟨rest2.takeWhile isSpaceChar, [], [], hw2, Or.inl rfl, ?_, ?_⟩
      · intro c hmem; cases hmem
      · conv_lhs => rw [hsplit, hc]
        simp
  | cons c r3 =>
      have hcns : isSpaceChar c = false :=
        head_dropWhile_not isSpaceChar rest2 c (by rw [hc]; rfl)
      rw [hc] at h1
      by_cases hx : c = 'x' ∨ c = 'X'
      · have hst : stripX (c :: r3) = r3 := by simp [stripX, hx]
        rw [hst] at h1
        refine ⟨rest2.takeWhile isSpaceChar, [c], r3, hw2, ?_,
          all_of_dropWhile_eq_nil h1, ?_⟩
        · rcases hx with rfl | rfl
          · right; left; rfl
          · right; right; rfl
        · conv_lhs => rw [hsplit, hc]
          simp
      · have hst : stripX (c :: r3) = c :: r3 := by simp [stripX, hx]
        rw [hst] at h1
        have := all_of_dropWhile_eq_nil h1 c (by simp)
        rw [this] at hcns
        cases hcns

theorem magMatch_sound {s : List Char} {d : DecimalLit} (h : magMatch s = some d) :
    MagGrammar s d.toRat := by
  simp only [magMatch] at h
  by_cases h0 : (s.dropWhile isSpaceChar).takeWhile isDigitChar = []
  · rw [if_pos h0] at h; cases h
  · rw [if_neg h0] at h
    by_cases h1 :
        (stripX ((fracSplit ((s.dropWhile isSpaceChar).dropWhile isDigitChar)).2.dropWhile
          isSpaceChar)).dropWhile isSpaceChar = []
    · rw [if_pos h1] at h
      obtain rfl := Option.some.inj h
      have hsw1 : s = s.takeWhile isSpaceChar ++ s.dropWhile isSpaceChar :=
        (List.takeWhile_append_dropWhile _ _).symm
      have hw1 : IsWsStr (s.takeWhile isSpaceChar) := all_takeWhile _ _
      have hr0 : s.dropWhile isSpaceChar =
          (s.dropWhile isSpaceChar).takeWhile isDigitChar ++
            (s.dropWhile isSpaceChar).dropWhile isDigitChar :=
        (List.takeWhile_append_dropWhile _ _).symm
      have hdsdig : ∀ c ∈ (s.dropWhile isSpaceChar).takeWhile isDigitChar,
          isDigitChar c = true := all_takeWhile _ _
      rcases fracSplit_cases ((s.dropWhile isSpaceChar).dropWhile isDigitChar) with
        hfs | ⟨r, hr1eq, hfne, hfseq⟩
      · -- no fractional part: the literal is the leading digit run
        rw [hfs] at h1
        dsimp only at h1
        obtain ⟨w2, x, w3, hw2, hxx, hw3, htl⟩ := magTail_sound h1
        refine ⟨s.takeWhile isSpaceChar, (s.dropWhile isSpaceChar).takeWhile isDigitChar,
          w2, x, w3, hw1, ?_, hw2, hxx, hw3, ?_⟩
        · left
          refine ⟨⟨h0, hdsdig⟩, ?_⟩
          rw [hfs]
          simp [DecimalLit.toRat]
        · conv_lhs => rw [hsw1, hr0, htl]
          simp [List.append_assoc]
      · -- fractional part present
        rw [hfseq] at h1
        dsimp only at h1
        obtain ⟨w2, x, w3, hw2, hxx, hw3, htl⟩ := magTail_sound h1
        have hrr : r = r.takeWhile isDigitChar ++ r.dropWhile isDigitChar :=
          (List.takeWhile_append_dropWhile _ _).symm
        refine ⟨s.takeWhile isSpaceChar,
          (s.dropWhile isSpaceChar).takeWhile isDigitChar ++ '.' :: r.takeWhile isDigitChar,
          w2, x, w3, hw1, ?_, hw2, hxx, hw3, ?_⟩
        · right
          refine ⟨(s.dropWhile isSpaceChar).takeWhile isDigitChar, r.takeWhile isDigitChar,
            ⟨h0, hdsdig⟩, ⟨hfne, all_takeWhile _ _⟩, rfl, ?_⟩
          rw [hfseq]
          simp [DecimalLit.toRat]
        · conv_lhs => rw [hsw1, hr0, hr1eq, hrr, htl]
          simp [List.append_assoc]
    · rw [if_neg h1] at h; cases h

theorem magMatch_complete {s : List Char} {v : ℚ} (h : MagGrammar s v) :
    ∃ d, magMatch s = some d ∧ d.toRat = v := by
  obtain ⟨w1, n, w2, x, w3, hw1, hn, hw2, hx, hw3, rfl⟩ := h
  have htail := tail_head_not hw2 hx hw3
  have htail' : ∀ c, (w2 ++ (x ++ w3)).head? = some c →
      isDigitChar c = false ∧ c ≠ '.' := by
    rw [← List.append_assoc]; exact htail
  have htempty :
      (stripX ((w2 ++ (x ++ w3)).dropWhile isSpaceChar)).dropWhile isSpaceChar = [] := by
    rw [← List.append_assoc]; exact magTail_empty hw2 hx hw3
  rcases hn with ⟨⟨hne, hdig⟩, rfl⟩ | ⟨dsg, fsg, ⟨hdne, hddig⟩, ⟨hfne, hfdig⟩, rfl, rfl⟩
  · -- integer literal
    have hassoc : w1 ++ n ++ w2 ++ x ++ w3 = w1 ++ (n ++ (w2 ++ (x ++ w3))) := by
      simp [List.append_assoc]
    rw [hassoc]
    have hd1 : (w1 ++ (n ++ (w2 ++ (x ++ w3)))).dropWhile isSpaceChar =
        n ++ (w2 ++ (x ++ w3)) := by
      rw [dropWhile_append_all isSpaceChar hw1]
      cases n with
      | nil => exact absurd rfl hne
      | cons c n' =>
          have hcs : isSpaceChar c = false := digit_not_space (hdig c (by simp))
          rw [List.cons_append, List.dropWhile_cons, if_neg (by simp [hcs])]
    have hmunch := takeWhile_munch isDigitChar hdig (fun c hc => (htail' c hc).1)
    have hfrac : fracSplit (w2 ++ (x ++ w3)) = ([], w2 ++ (x ++ w3)) :=
      fracSplit_of_head_not_dot (fun c hc => (htail' c hc).2)
    refine ⟨⟨digitsToNat (n ++ []), 0⟩, ?_, ?_⟩
    · simp only [magMatch]
      rw [hd1, hmunch.1, hmunch.2, if_neg hne, hfrac]
      dsimp only
      rw [if_pos htempty]
      rfl
    · simp [DecimalLit.toRat]
  · -- decimal literal
    have hassoc : w1 ++ (dsg ++ '.' :: fsg) ++ w2 ++ x ++ w3 =
        w1 ++ (dsg ++ ('.' :: (fsg ++ (w2 ++ (x ++ w3))))) := by
      simp [List.append_assoc]
    rw [hassoc]
    have hd1 : (w1 ++ (dsg ++ ('.' :: (fsg ++ (w2 ++ (x ++ w3)))))).dropWhile isSpaceChar =
        dsg ++ ('.' :: (fsg ++ (w2 ++ (x ++ w3)))) := by
      rw [dropWhile_append_all isSpaceChar hw1]
      cases dsg with
      | nil => exact absurd rfl hdne
      | cons c n' =>
          have hcs : isSpaceChar c = false := digit_not_space (hddig c (by simp))
          rw [List.cons_append, List.dropWhile_cons, if_neg (by simp [hcs])]
    have hmunch1 := takeWhile_munch isDigitChar hddig
      (show ∀ c, ('.' :: (fsg ++ (w2 ++ (x ++ w3)))).head? = some c →
          isDigitChar c = false by
        intro c hc
        obtain rfl : '.' = c := by simpa using hc
        decide)
    have hmunch2 := takeWhile_munch isDigitChar hfdig (fun c hc => (htail' c hc).1)
    have hcond : ('.' : Char) = '.' ∧
        (fsg ++ (w2 ++ (x ++ w3))).takeWhile isDigitChar ≠ [] :=
      ⟨rfl, by rw [hmunch2.1]; exact hfne⟩
    have hfrac : fracSplit ('.' :: (fsg ++ (w2 ++ (x ++ w3)))) =
        (fsg, w2 ++ (x ++ w3)) := by
      rw [fracSplit_cons, if_pos hcond, hmunch2.1, hmunch2.2]
    refine ⟨⟨digitsToNat (dsg ++ fsg), fsg.length⟩, ?_, ?_⟩
    · simp only [magMatch]
      rw [hd1, hmunch1.1, hmunch1.2, if_neg hdne, hfrac]
      dsimp only
      rw [if_pos htempty]
    · simp [DecimalLit.toRat]

/-! ## C3 -/

/-- C3: in every successfully parsed filename the magnification value is
exactly the reading of the spec's grammar on the separator-normalised raw
token — present with the literal's decimal value when the grammar matches,
absent when it does not — the stated examples hold, and an unparseable
magnification is never a parse failure (any 5-token stem still parses). -/
theorem c3_magnification_normalization (name : String) (r : ParsedMeta)
    (h : parse_filename name = .ok r) :
    (∀ v : ℚ, r.magnification_value.map DecimalLit.toRat = some v ↔
      MagGrammar (dotNormalize r.magnification) v) ∧
    (r.magnification_value = none ↔
      ¬ ∃ v : ℚ, MagGrammar (dotNormalize r.magnification) v) ∧
    (parse_mag_value "10x").map DecimalLit.toRat = some 10 ∧
    (parse_mag_value "10X").map DecimalLit.toRat = some 10 ∧
    (parse_mag_value "10_5x").map DecimalLit.toRat = some (21 / 2) ∧
    parse_mag_value "NA" = none ∧
    (∀ name' : String, 5 ≤ (stemTokens name').length →
      ∃ r', parse_filename name' = .ok r') := by
  have hval : r.magnification_value = parse_mag_value r.magnification := by
    have hlen : ¬ (stemTokens name).length < 5 := by
      intro hlt
      rw [parse_filename_err name hlt] at h
      cases h
    rw [parse_filename_ok name hlen] at h
    obtain rfl := Except.ok.inj h
    rfl
  refine ⟨?_, ?_, ?_, ?_, ?_, by decide,
    fun name' h' => ⟨_, parse_filename_ok name' (by omega)⟩⟩
  · intro v
    rw [hval]
    constructor
    · intro hv
      obtain ⟨d, hd, hdv⟩ := Option.map_eq_some'.mp hv
      rw [← hdv]
      exact magMatch_sound hd
    · intro hg
      obtain ⟨d, hd, hdv⟩ := magMatch_complete hg
      simp only [parse_mag_value]
      rw [hd]
      simp [hdv]
  · rw [hval]
    constructor
    · intro hnone hex
      obtain ⟨v, hg⟩ := hex
      obtain ⟨d, hd, _⟩ := magMatch_complete hg
      simp only [parse_mag_value] at hnone
      rw [hnone] at hd
      cases hd
    · intro hng
      cases hcase : parse_mag_value r.magnification with
      | none => rfl
      | some d =>
          exact absurd ⟨d.toRat, magMatch_sound (by simpa [parse_mag_value] using hcase)⟩ hng
  · have h10 : parse_mag_value "10x" = some ⟨10, 0⟩ := by decide
    rw [h10]
    simp [DecimalLit.toRat]
  · have h10 : parse_mag_value "10X" = some ⟨10, 0⟩ := by decide
    rw [h10]
    simp [DecimalLit.toRat]
  · have h105 : parse_mag_value "10_5x" = some ⟨105, 1⟩ := by decide
    rw [h105]
    simp [DecimalLit.toRat]
    norm_num

/-- Witness for C3 at the repository's example filename. -/
theorem c3_witness :
    parse_filename exampleName5 = .ok exampleMeta5 ∧
    (exampleMeta5.magnification_value.map DecimalLit.toRat = some 10 ↔
      MagGrammar (dotNormalize exampleMeta5.magnification) 10) := by
  have h : parse_filename exampleName5 = .ok exampleMeta5 := by decide
  exact ⟨h, (c3_magnification_normalization exampleName5 exampleMeta5 h).1 10⟩

/-! ## C5, C9 -/

theorem build_table_go (exts : List String) (names : List String)
    (rs : List Row) (es : List (String × ParseError)) :
    names.foldl (buildStep exts) (rs, es) =
      (rs ++ names.filterMap (fun n =>
          if pyLower (suffixOf n) ∈ exts then (parse_filename n).toOption.map (mkRow n)
          else none),
       es ++ names.filterMap (fun n =>
          if pyLower (suffixOf n) ∈ exts then
            match parse_filename n with
            | .ok _ => none
            | .error e => some (n, e)
          else none)) := by
  induction names generalizing rs es with
  | nil => simp
  | cons n ns ih =>
      rw [List.foldl_cons]
      cases hp : parse_filename n with
      | ok m =>
          by_cases hk : pyLower (suffixOf n) ∈ exts
          · have hstep : buildStep exts (rs, es) n = (rs ++ [mkRow n m], es) := by
              simp [buildStep, hk, hp]
            rw [hstep, ih]
            simp [List.filterMap_cons, hk, hp, Except.toOption, List.append_assoc]
          · have hstep : buildStep exts (rs, es) n = (rs, es) := by
              simp [buildStep, hk]
            rw [hstep, ih]
            simp [List.filterMap_cons, hk]
      | error e =>
          by_cases hk : pyLower (suffixOf n) ∈ exts
          · have hstep : buildStep exts (rs, es) n = (rs, es ++ [(n, e)]) := by
              simp [buildStep, hk, hp]
            rw [hstep, ih]
            simp [List.filterMap_cons, hk, hp, Except.toOption, List.append_assoc]
          · have hstep : buildStep exts (rs, es) n = (rs, es) := by
              simp [buildStep, hk]
            rw [hstep, ih]
            simp [List.filterMap_cons, hk]

/-- C5: over any listing, the builder emits exactly the parsed rows of the
extension-admitted entries in listing order as its first component, and the
`(filename, failure)` pairs of the failing entries in listing order as its
second; a failure never stops the fold, and the result is the pair
`(records, errors)`. -/
theorem c5_builder_best_effort (exts : List String) (names : List String) :
    build_table exts names =
      (names.filterMap (fun n =>
          if pyLower (suffixOf n) ∈ exts then (parse_filename n).toOption.map (mkRow n)
          else none),
       names.filterMap (fun n =>
          if pyLower (suffixOf n) ∈ exts then
            match parse_filename n with
            | .ok _ => none
            | .error e => some (n, e)
          else none)) := by
  have h := build_table_go exts names [] []
  simpa [build_table] using h

/-- C9: the three-file scenario produces exactly 2 rows and 1 skipped entry,
with magnification values `[10.0, 20.0]` in table order. -/
theorem c9_scenario :
    (build_table default_exts
        ["PCM_BIU_glassLube_NA_10x.jpg", "DIC_LAB_foo_POL_20x.png", "bad.jpg"]).1.length = 2 ∧
    (build_table default_exts
        ["PCM_BIU_glassLube_NA_10x.jpg", "DIC_LAB_foo_POL_20x.png", "bad.jpg"]).2.length = 1 ∧
    (build_table default_exts
        ["PCM_BIU_glassLube_NA_10x.jpg", "DIC_LAB_foo_POL_20x.png", "bad.jpg"]).1.map
      (fun r => r.magnification_value.map DecimalLit.toRat) = [some 10, some 20] := by
  refine ⟨by decide, by decide, ?_⟩
  have hrows : (build_table default_exts
      ["PCM_BIU_glassLube_NA_10x.jpg", "DIC_LAB_foo_POL_20x.png", "bad.jpg"]).1 =
      [⟨"PCM_BIU_glassLube_NA_10x.jpg", "PCM", "BIU", "glassLube", "NA", "10x",
         some ⟨10, 0⟩, ".jpg", "PCM_BIU_glassLube_NA_10x.jpg"⟩,
       ⟨"DIC_LAB_foo_POL_20x.png", "DIC", "LAB", "foo", "POL", "20x",
         some ⟨20, 0⟩, ".png", "DIC_LAB_foo_POL_20x.png"⟩] := by decide
  rw [hrows]
  simp [DecimalLit.toRat]

/-! ## C8, C10 -/

/-- Counterexample to C8: a persisted header row lacking `magnification_value`
(one of the claim's 9 required columns) loads successfully — the viewer
defaults the column instead of failing — and a header row lacking `rel_path`
fails with the pandas `KeyError` from the `full_path` construction, not with
`MissingRequiredColumn`. -/
theorem c8_counterexample :
    load_metadata cols_without_magvalue =
      Except.ok ["filename", "method", "location", "sample", "mode", "magnification",
        "ext", "rel_path", "full_path", "magnification_value"] ∧
    "magnification_value" ∉ cols_without_magvalue ∧
    load_metadata cols_without_relpath = Except.error (.keyError "rel_path") :=
  ⟨by decide, by decide, by decide⟩

/-- C8 (amended): when the persisted file has a column named exactly
`rel_path`, the viewer fails with `MissingRequiredColumn` — reporting the
sorted list of missing columns and proceeding no further — exactly when one of
the 8 required columns (the claim's 9 minus `magnification_value`, whose
absence is tolerated and defaulted) is absent after header normalisation;
without a verbatim `rel_path` column the load aborts earlier with a
`KeyError`. -/
theorem c8_missing_column_validation (cols : List String)
    (hrel : "rel_path" ∈ cols) :
    (required_columns.filter
        (fun c => decide (c ∉ (cols ++ ["full_path"]).map norm_header)) = [] →
      ∃ res, load_metadata cols = Except.ok res) ∧
    (required_columns.filter
        (fun c => decide (c ∉ (cols ++ ["full_path"]).map norm_header)) ≠ [] →
      load_metadata cols = Except.error (.missingRequiredColumn
        (required_columns.filter
          (fun c => decide (c ∉ (cols ++ ["full_path"]).map norm_header))))) ∧
    (required_columns.filter
        (fun c => decide (c ∉ (cols ++ ["full_path"]).map norm_header)) = [] ↔
      ∀ c ∈ required_columns, c ∈ (cols ++ ["full_path"]).map norm_header) := by
  refine ⟨?_, ?_, ?_⟩
  · intro h
    unfold load_metadata
    rw [if_pos hrel]
    dsimp only
    rw [if_pos h]
    exact ⟨_, rfl⟩
  · intro h
    unfold load_metadata
    rw [if_pos hrel]
    dsimp only
    rw [if_neg h]
  · constructor
    · intro h c hc
      by_contra hnc
      have hmem : c ∈ required_columns.filter
          (fun c => decide (c ∉ (cols ++ ["full_path"]).map norm_header)) :=
        List.mem_filter.2 ⟨hc, by simpa using hnc⟩
      rw [h] at hmem
      cases hmem
    · intro hall
      cases hflt : required_columns.filter
          (fun c => decide (c ∉ (cols ++ ["full_path"]).map norm_header)) with
      | nil => rfl
      | cons c rest =>
          have hmem : c ∈ required_columns.filter
              (fun c => decide (c ∉ (cols ++ ["full_path"]).map norm_header)) := by
            rw [hflt]; exact List.mem_cons_self _ _
          have h2 := List.mem_filter.1 hmem
          have h3 : c ∉ (cols ++ ["full_path"]).map norm_header := by
            simpa using h2.2
          exact absurd (hall c h2.1) h3

/-- Witness for C8 (amended) at a header row missing `method`. -/
theorem c8_witness :
    load_metadata cols_without_method = Except.error (.missingRequiredColumn ["method"]) := by
  have h := (c8_missing_column_validation cols_without_method (by decide)).2.1 (by decide)
  exact h.trans (by decide)

/-- C10 at the failing input: an all-uppercase header row — differing from the
canonical names only in letter case — aborts the load with the `rel_path`
`KeyError` raised by the `full_path` construction (line 50) before the header
normalisation of line 52, so schema validation is never reached; the same case
and whitespace variations do pass validation when `rel_path` alone is spelled
canonically. -/
theorem c10_keyerror_before_validation :
    load_metadata cols_upper = Except.error (.keyError "rel_path") ∧
    cols_upper.map norm_header =
      ["filename", "method", "location", "sample", "mode", "magnification",
       "magnification_value", "ext", "rel_path"] ∧
    load_metadata cols_mixedcase =
      Except.ok ["filename", "method", "location", "sample", "mode", "magnification",
        "magnification_value", "ext", "rel_path", "full_path"] :=
  ⟨by decide, by decide, by decide⟩

/-! ## C6 -/

/-- Counterexample to C6: with query `"a.c"` the filter keeps `row_axc`
(pandas `str.contains` treats the query as a regular expression, and `'.'`
matches the `'x'` of `"axc"`), although the query is not a substring of the
row's `sample` or `filename` — so the text facet is not substring matching. -/
theorem c6_counterexample :
    filtered_df cfg_regex [row_axc] = [row_axc] ∧
    spec_substring_ci cfg_regex.q row_axc.sample = false ∧
    spec_substring_ci cfg_regex.q row_axc.filename = false ∧
    pyStrip cfg_regex.q ≠ "" :=
  ⟨by decide, by decide, by decide, by decide⟩

/-- C6 (amended): with every membership facet at its full default (the
distinct values observed in the table) and an empty free-text search, the
filter returns the table unchanged in content and order; and the five facets
combine conjunctively, the text facet matching the stripped query
case-insensitively as a regular-expression search within `sample` OR
`filename` (plain substring matching only for queries without regex
metacharacters). -/
theorem c6_identity_and_conjunctive :
    (∀ (df : List Row) (cfg : FilterConfig),
      pyStrip cfg.q = "" →
      cfg.sel_methods = sorted_unique (df.map Row.method) →
      cfg.sel_locations = sorted_unique (df.map Row.location) →
      cfg.sel_modes = sorted_unique (df.map Row.mode) →
      cfg.sel_mags = sorted_unique (df.map Row.magnification) →
      filtered_df cfg df = df) ∧
    (∀ (df : List Row) (cfg : FilterConfig),
      filtered_df cfg df = df.filter (fun r =>
        textTest cfg.q r && decide (r.method ∈ cfg.sel_methods) &&
        decide (r.location ∈ cfg.sel_locations) && decide (r.mode ∈ cfg.sel_modes) &&
        decide (r.magnification ∈ cfg.sel_mags))) := by
  have hmem : ∀ (f : Row → String) (df : List Row) (r : Row), r ∈ df →
      f r ∈ sorted_unique (df.map f) := by
    intro f df r hr
    simp only [sorted_unique, List.mem_dedup, List.mem_mergeSort, List.mem_map]
    exact ⟨r, hr, rfl⟩
  constructor
  · intro df cfg hq h1 h2 h3 h4
    unfold filtered_df
    rw [if_pos hq]
    dsimp only
    rw [h1, h2, h3, h4]
    have hfix1 : df.filter (fun r =>
        decide (r.method ∈ sorted_unique (df.map Row.method)) &&
        decide (r.location ∈ sorted_unique (df.map Row.location)) &&
        decide (r.mode ∈ sorted_unique (df.map Row.mode))) = df := by
      apply List.filter_eq_self.2
      intro r hr
      simp only [Bool.and_eq_true, decide_eq_true_eq]
      exact ⟨⟨hmem Row.method df r hr, hmem Row.location df r hr⟩, hmem Row.mode df r hr⟩
    rw [hfix1]
    apply List.filter_eq_self.2
    intro r hr
    simpa using hmem Row.magnification df r hr
  · intro df cfg
    unfold filtered_df
    by_cases hq : pyStrip cfg.q = ""
    · rw [if_pos hq]
      dsimp only
      simp only [List.filter_filter]
      apply List.filter_congr
      intro r hr
      simp [textTest, hq, Bool.and_assoc, Bool.and_comm, Bool.and_left_comm]
    · rw [if_neg hq]
      dsimp only
      simp only [List.filter_filter]
      apply List.filter_congr
      intro r hr
      simp [textTest, hq, Bool.and_assoc, Bool.and_comm, Bool.and_left_comm]

/-- Witness for C6 (amended) on the one-row table: the identity configuration
returns the table unchanged. -/
theorem c6_witness : filtered_df cfg_ident [row_axc] = [row_axc] := by
  apply c6_identity_and_conjunctive.1 [row_axc] cfg_ident (by decide)
  · show cfg_ident.sel_methods = sorted_unique ["M"]
    simp [sorted_unique, cfg_ident]
  · show cfg_ident.sel_locations = sorted_unique ["L"]
    simp [sorted_unique, cfg_ident]
  · show cfg_ident.sel_modes = sorted_unique ["NA"]
    simp [sorted_unique, cfg_ident]
  · show cfg_ident.sel_mags = sorted_unique ["10x"]
    simp [sorted_unique, cfg_ident]

/-! ## C7 -/

theorem rowLe_trans (ax : Axis) :
    ∀ x y z : Row, rowLe ax x y → rowLe ax y z → rowLe ax x z := by
  intro x y z hxy hyz
  rcases hxy with h1 | ⟨h1, h1f⟩
  · rcases hyz with h2 | ⟨h2, h2f⟩
    · exact Or.inl (lt_trans h1 h2)
    · exact Or.inl (by rw [← h2]; exact h1)
  · rcases hyz with h2 | ⟨h2, h2f⟩
    · exact Or.inl (by rw [h1]; exact h2)
    · exact Or.inr ⟨h1.trans h2, le_trans h1f h2f⟩

theorem rowLe_total (ax : Axis) : ∀ x y : Row, rowLe ax x y ∨ rowLe ax y x := by
  intro x y
  rcases lt_trichotomy (fieldGet ax x) (fieldGet ax y) with h | h | h
  · exact Or.inl (Or.inl h)
  · rcases le_total x.filename y.filename with hf | hf
    · exact Or.inl (Or.inr ⟨h, hf⟩)
    · exact Or.inr (Or.inr ⟨h.symm, hf⟩)
  · exact Or.inr (Or.inl h)

theorem sortRows_chain (ax : Axis) (l : List Row) :
    (sortRows ax l).Chain' (rowLe ax) := by
  have hp := @List.sorted_mergeSort Row (fun x y => decide (rowLe ax x y))
    (fun a b c hab hbc =>
      decide_eq_true (rowLe_trans ax a b c (of_decide_eq_true hab) (of_decide_eq_true hbc)))
    (fun a b => by rcases rowLe_total ax a b with h | h <;> simp [h])
    l
  exact (hp.imp fun h => of_decide_eq_true h).chain'

theorem insertGroup_nil (key : Row → String) (r : Row) :
    insertGroup key r [] = [(key r, [r])] := rfl

theorem insertGroup_cons (key : Row → String) (r : Row) (k : String) (g : List Row)
    (gs : List (String × List Row)) :
    insertGroup key r ((k, g) :: gs) =
      if key r = k then (k, r :: g) :: gs else (key r, [r]) :: (k, g) :: gs := rfl

theorem groupConsec_nil (key : Row → String) : groupConsec key [] = [] := rfl

theorem groupConsec_cons (key : Row → String) (r : Row) (rs : List Row) :
    groupConsec key (r :: rs) = insertGroup key r (groupConsec key rs) := rfl

theorem groupConsec_flatten (key : Row → String) (l : List Row) :
    ((groupConsec key l).map Prod.snd).flatten = l := by
  induction l with
  | nil => rfl
  | cons r rs ih =>
      rw [groupConsec_cons]
      cases hg : groupConsec key rs with
      | nil =>
          rw [hg] at ih
          simp only [List.map_nil, List.flatten_nil] at ih
          rw [insertGroup_nil, ← ih]
          rfl
      | cons q gs =>
          obtain ⟨k, g⟩ := q
          rw [hg] at ih
          have ih' : g ++ (gs.map Prod.snd).flatten = rs := by simpa using ih
          rw [insertGroup_cons]
          by_cases hk : key r = k
          · rw [if_pos hk]
            simp [ih']
          · rw [if_neg hk]
            simp [ih']

theorem groupConsec_mem (key : Row → String) (l : List Row) :
    ∀ p ∈ groupConsec key l, p.2 ≠ [] ∧ ∀ r' ∈ p.2, key r' = p.1 := by
  induction l with
  | nil => intro p hp; cases hp
  | cons r rs ih =>
      intro p hp
      rw [groupConsec_cons] at hp
      cases hg : groupConsec key rs with
      | nil =>
          rw [hg, insertGroup_nil] at hp
          have hp' : p = (key r, [r]) := by simpa using hp
          subst hp'
          refine ⟨by simp, ?_⟩
          intro r' hr'
          have : r' = r := by simpa using hr'
          rw [this]
      | cons q gs =>
          obtain ⟨k, g⟩ := q
          rw [hg, insertGroup_cons] at hp
          by_cases hk : key r = k
          · rw [if_pos hk] at hp
            rcases List.mem_cons.mp hp with rfl | hp2
            · have hbase := ih (k, g) (by rw [hg]; exact List.mem_cons_self _ _)
              refine ⟨by simp, ?_⟩
              intro r' hr'
              rcases List.mem_cons.mp hr' with rfl | hr2
              · exact hk
              · exact hbase.2 r' hr2
            · exact ih p (by rw [hg]; exact List.mem_cons_of_mem _ hp2)
          · rw [if_neg hk] at hp
            rcases List.mem_cons.mp hp with rfl | hp2
            · refine ⟨by simp, ?_⟩
              intro r' hr'
              have : r' = r := by simpa using hr'
              rw [this]
            · exact ih p (by rw [hg]; exact hp2)

theorem groupConsec_head (key : Row → String) (r : Row) (rs : List Row) :
    ∃ g gs, groupConsec key (r :: rs) = (key r, r :: g) :: gs := by
  rw [groupConsec_cons]
  cases hg : groupConsec key rs with
  | nil => exact ⟨[], [], rfl⟩
  | cons q gs =>
      obtain ⟨k, g⟩ := q
      rw [insertGroup_cons]
      by_cases hk : key r = k
      · rw [if_pos hk]
        exact ⟨g, gs, by rw [hk]⟩
      · rw [if_neg hk]
        exact ⟨[], (k, g) :: gs, rfl⟩

theorem groupConsec_chains (key : Row → String) (le : Row → Row → Prop)
    (hcompat : ∀ x y, le x y → key x < key y ∨ key x = key y)
    (l : List Row) (hl : l.Chain' le) :
    List.Chain' (· < ·) ((groupConsec key l).map Prod.fst) ∧
    ∀ p ∈ groupConsec key l, p.2.Chain' le := by
  induction l with
  | nil => exact ⟨List.chain'_nil, by intro p hp; cases hp⟩
  | cons r rs ih =>
      obtain ⟨hkeys, hgroups⟩ := ih hl.tail
      cases rs with
      | nil =>
          constructor
          · simp [groupConsec_cons, groupConsec_nil, insertGroup_nil]
          · intro p hp
            have hp' : p = (key r, [r]) := by
              simpa [groupConsec_cons, groupConsec_nil, insertGroup_nil] using hp
            subst hp'
            simp
      | cons b rs' =>
          obtain ⟨g, gs, hshape⟩ := groupConsec_head key b rs'
          have hab : le r b := (List.chain'_cons.mp hl).1
          rw [groupConsec_cons, hshape, insertGroup_cons]
          rw [hshape] at hkeys hgroups
          by_cases hk : key r = key b
          · rw [if_pos hk]
            constructor
            · simpa using hkeys
            · intro p hp
              rcases List.mem_cons.mp hp with rfl | hp2
              · have hbg : (b :: g).Chain' le := by
                  simpa using hgroups (key b, b :: g) (List.mem_cons_self _ _)
                exact List.chain'_cons.mpr ⟨hab, hbg⟩
              · exact hgroups p (List.mem_cons_of_mem _ hp2)
          · rw [if_neg hk]
            have hlt : key r < key b := by
              rcases hcompat r b hab with h | h
              · exact h
              · exact absurd h hk
            constructor
            · simp only [List.map_cons]
              exact List.chain'_cons.mpr ⟨hlt, by simpa using hkeys⟩
            · intro p hp
              rcases List.mem_cons.mp hp with rfl | hp2
              · simp
              · exact hgroups p hp2

/-- C7: for every table, pinned value and secondary attribute, the grouped
view contains exactly the rows whose pinned field equals the pinned value,
partitioned into nonempty groups labelled by the distinct values of the
secondary attribute, with group keys strictly ascending and rows inside each
group ordered by (secondary attribute, filename); when no row matches the
pinned value the view is the empty sequence. -/
theorem c7_grouping (df : List Row) (pin ax : Axis) (v : String) :
    (((grouped_view df pin v ax).map Prod.snd).flatten).Perm
      (df.filter (fun r => decide (fieldGet pin r = v))) ∧
    List.Chain' (· < ·) ((grouped_view df pin v ax).map Prod.fst) ∧
    (∀ p ∈ grouped_view df pin v ax, p.2 ≠ [] ∧
      (∀ r ∈ p.2, fieldGet ax r = p.1 ∧ fieldGet pin r = v) ∧
      p.2.Chain' (rowLe ax)) ∧
    (df.filter (fun r => decide (fieldGet pin r = v)) = [] →
      grouped_view df pin v ax = []) := by
  unfold grouped_view
  have hflat := groupConsec_flatten (fieldGet ax)
    (sortRows ax (df.filter (fun r => decide (fieldGet pin r = v))))
  have hperm : (sortRows ax (df.filter (fun r => decide (fieldGet pin r = v)))).Perm
      (df.filter (fun r => decide (fieldGet pin r = v))) := by
    unfold sortRows
    exact List.mergeSort_perm _ _
  have hchain := sortRows_chain ax (df.filter (fun r => decide (fieldGet pin r = v)))
  have hcompat : ∀ x y : Row, rowLe ax x y →
      fieldGet ax x < fieldGet ax y ∨ fieldGet ax x = fieldGet ax y := by
    intro x y h
    rcases h with h | ⟨h, _⟩
    · exact Or.inl h
    · exact Or.inr h
  obtain ⟨hkeys, hgroups⟩ := groupConsec_chains (fieldGet ax) (rowLe ax) hcompat _ hchain
  have hmem := groupConsec_mem (fieldGet ax)
    (sortRows ax (df.filter (fun r => decide (fieldGet pin r = v))))
  refine ⟨?_, hkeys, ?_, ?_⟩
  · rw [hflat]
    exact hperm
  · intro p hp
    refine ⟨(hmem p hp).1, ?_, hgroups p hp⟩
    intro r hr
    refine ⟨(hmem p hp).2 r hr, ?_⟩
    have hrf : r ∈ sortRows ax (df.filter (fun r => decide (fieldGet pin r = v))) := by
      rw [← hflat]
      exact List.mem_flatten.mpr ⟨p.2, List.mem_map_of_mem Prod.snd hp, hr⟩
    have hrl : r ∈ df.filter (fun r => decide (fieldGet pin r = v)) := by
      unfold sortRows at hrf
      exact List.mem_mergeSort.mp hrf
    have := List.of_mem_filter hrl
    simpa using this
  · intro hnil
    rw [hnil]
    unfold sortRows
    rw [List.mergeSort_nil]
    rfl
